import Mathlib

/-!
# Verification of the TokTokenizer byte-level BPE tokenizer

Shallow embedding of `src/tokenizer.rs` (struct `BasicTokenizer` and the free
functions `merge` and `get_stats`), together with proofs settling the claims
about it.

Modelling conventions:
* Rust `&str` / `String` values are modelled by their UTF-8 byte sequences,
  `List ℕ` (each byte `< 256`); `text.as_bytes()` is then the identity.
* `u32` / `usize` values are modelled as `ℕ`; the one place where wrap-around
  matters (`vocab_size - 256` on `usize`) is modelled explicitly mod `2 ^ 64`.
* `HashMap` is modelled as an association list where the most recent insertion
  shadows older ones (`hmGet` / `hmInsert`), which is extensionally the map the
  Rust code maintains; `HashMap::len` is the number of distinct keys (`hmLen`).
* The only place the code observes a `HashMap`'s (unspecified, randomized)
  iteration order is `stats.iter().max_by_key(...)` in `train`.  Training is
  therefore parameterized by a selection function `sel`; any run of the Rust
  code corresponds to some `sel` that returns a key of `stats` with maximal
  count (`ValidSel`).  Two concrete such selections, `selFirstMax` and
  `selLastMax`, are defined below.
* Panics (`unwrap` on `None`, out-of-bounds indexing, `String::from_utf8(..)
  .unwrap()`) are modelled as `none` / `Except.error` results.
* The `while` loop of `encode` is modelled with explicit fuel (`encodeBound`);
  the termination theorem below proves the fuel is always sufficient for a
  merge table produced by training, i.e. the fuel is a modelling device only.
-/

set_option maxRecDepth 100000

namespace Toktokenizer

/-- Functional model of `HashMap` lookup over an association list: the most
recently inserted binding for a key wins. -/
def hmGet {κ β : Type} [DecidableEq κ] (m : List (κ × β)) (k : κ) : Option β :=
  match m with
  | [] => none
  | p :: rest => if p.1 = k then some p.2 else hmGet rest k

/-- Functional model of `HashMap::insert`: the new binding shadows any previous
binding of the same key. -/
def hmInsert {κ β : Type} (m : List (κ × β)) (k : κ) (v : β) : List (κ × β) :=
  (k, v) :: m

/-- The keys of an association list (with multiplicity of insertions). -/
def hmKeys {κ β : Type} (m : List (κ × β)) : List κ :=
  m.map Prod.fst

/-- The number of distinct elements of a list (each element is counted at its
last occurrence). -/
def countDistinct {κ : Type} [DecidableEq κ] : List κ → ℕ
  | [] => 0
  | k :: rest => if k ∈ rest then countDistinct rest else countDistinct rest + 1

/-- Functional model of `HashMap::len`: the number of distinct keys. -/
def hmLen {κ β : Type} [DecidableEq κ] (m : List (κ × β)) : ℕ :=
  countDistinct (hmKeys m)

/-- The body of the `for window in ids.windows(2)` loop of `merge`
(`tokenizer.rs` lines 30-44): a left-to-right scan with the `merged` skip flag.
A merged pair at position `i` emits `idx` and resumes scanning at `i + 2`;
otherwise the left element of the window is emitted.  The final element of the
slice, which the loop itself never emits, is appended separately by `merge`. -/
def mergeGo (pair : ℕ × ℕ) (idx : ℕ) : List ℕ → List ℕ
  | x :: y :: rest =>
    if pair.1 = x ∧ pair.2 = y then idx :: mergeGo pair idx rest
    else x :: mergeGo pair idx (y :: rest)
  | _ => []

/-- The last element of the nonempty list `x :: rest`, i.e. `ids[ids.len()-1]`
for a nonempty slice. -/
def lastElem (x : ℕ) : List ℕ → ℕ
  | [] => x
  | y :: rest => lastElem y rest

/-- `merge` (`tokenizer.rs` lines 25-48).  After the windows loop the code
unconditionally executes `new_ids.push(ids[ids.len() - 1])`; on an empty slice
the index `ids.len() - 1` underflows and the access panics, modelled as
`none`. -/
def merge (ids : List ℕ) (pair : ℕ × ℕ) (idx : ℕ) : Option (List ℕ) :=
  match ids with
  | [] => none
  | x :: rest => some (mergeGo pair idx (x :: rest) ++ [lastElem x rest])

/-- Modelled from the spec's words (§4.2 Merger): replace each non-overlapping
left-to-right occurrence of the adjacent pair by the single id `idx`, resuming
the scan at position `i + 2` after a merge at position `i`; empty and
single-element inputs are returned unchanged.  This is the reference
"non-overlapping-replacement semantics" that the code's `merge` is compared
against. -/
def specMerge (pair : ℕ × ℕ) (idx : ℕ) : List ℕ → List ℕ
  | x :: y :: rest =>
    if pair.1 = x ∧ pair.2 = y then idx :: specMerge pair idx rest
    else x :: specMerge pair idx (y :: rest)
  | l => l

/-- The list of adjacent pairs (`ids.windows(2)`) of a sequence. -/
def bigrams (ids : List ℕ) : List (ℕ × ℕ) :=
  ids.zip ids.tail

/-- One `entry(..).or_insert(0) += 1` update of the bigram counts. -/
def bumpPair {κ : Type} [DecidableEq κ] (stats : List (κ × ℕ)) (k : κ) :
    List (κ × ℕ) :=
  match stats with
  | [] => [(k, 1)]
  | p :: rest => if p.1 = k then (p.1, p.2 + 1) :: rest else p :: bumpPair rest k

/-- The windows loop of `get_stats` (`tokenizer.rs` lines 50-54). -/
def getStatsAux : List ℕ → List ((ℕ × ℕ) × ℕ) → List ((ℕ × ℕ) × ℕ)
  | x :: y :: rest, acc => getStatsAux (y :: rest) (bumpPair acc (x, y))
  | _, acc => acc

/-- `get_stats` (`tokenizer.rs` lines 50-54): the map from each adjacent pair
of `ids` to its occurrence count.  The association list is kept in first-
occurrence order; the actual `HashMap` iterates it in an unspecified order,
which only the selection function of `train` observes. -/
def get_stats (ids : List ℕ) : List ((ℕ × ℕ) × ℕ) :=
  getStatsAux ids []

/-- The largest count occurring in a stats list (`0` for the empty list). -/
def maxCount (stats : List ((ℕ × ℕ) × ℕ)) : ℕ :=
  stats.foldr (fun p acc => max p.2 acc) 0

/-- A concrete realization of `stats.iter().max_by_key(|(_, v)| *v)`: the
first key of the stats list attaining the maximal count (the result of
`max_by_key` under one particular `HashMap` iteration order). -/
def selFirstMax (stats : List ((ℕ × ℕ) × ℕ)) : Option (ℕ × ℕ) :=
  (stats.find? (fun p => p.2 == maxCount stats)).map Prod.fst

/-- Another realization of `max_by_key`: the last key attaining the maximal
count (the result under the reversed iteration order; `max_by_key` returns the
last maximal element of its iterator). -/
def selLastMax (stats : List ((ℕ × ℕ) × ℕ)) : Option (ℕ × ℕ) :=
  selFirstMax stats.reverse

/-- A selection function is valid iff it behaves like
`stats.iter().max_by_key(|(_, v)| *v).map(|(k, _)| *k)` under some `HashMap`
iteration order: it returns `none` only on an empty map, and any returned key
is bound in `stats` with a maximal count. -/
def ValidSel (sel : List ((ℕ × ℕ) × ℕ) → Option (ℕ × ℕ)) : Prop :=
  (∀ stats, sel stats = none → stats = []) ∧
  (∀ stats p, sel stats = some p →
    ∃ c, (p, c) ∈ stats ∧ ∀ q ∈ stats, q.2 ≤ c)

/-- The state of a `BasicTokenizer` during `train`: the working token sequence
together with the `vocab` and `merges` maps. -/
structure TrainState where
  ids : List ℕ
  vocab : List (ℕ × List ℕ)
  merges : List ((ℕ × ℕ) × ℕ)

/-- The `usize` subtraction `vocab_size - 256` (`tokenizer.rs` line 58).  On a
release build the subtraction wraps modulo `2 ^ 64` (a debug build panics on
overflow); there is no validity check and no error value. -/
def trainNumMerges (vocab_size : ℕ) : ℕ :=
  (vocab_size + 2 ^ 64 - 256) % 2 ^ 64

/-- The vocabulary seeding loop (`tokenizer.rs` lines 62-64): ids `0..255` map
to their single bytes. -/
def baseVocab : List (ℕ × List ℕ) :=
  (List.range 256).foldl (fun m i => hmInsert m i [i]) []

/-- One round of the training loop (`tokenizer.rs` lines 67-94): count bigrams,
select a maximal pair (`unwrap` panics when `stats` is empty, modelled as
`none`), mint `vocab.len()` as the new id, merge, and record the new
vocabulary entry and merge rule.  The `verbose` printing is pure observability
and is not modelled. -/
def trainStep (sel : List ((ℕ × ℕ) × ℕ) → Option (ℕ × ℕ)) (st : TrainState) :
    Option TrainState :=
  (sel (get_stats st.ids)).bind fun pair =>
    (merge st.ids pair (hmLen st.vocab)).bind fun ids' =>
      (hmGet st.vocab pair.1).bind fun b1 =>
        (hmGet st.vocab pair.2).bind fun b2 =>
          some { ids := ids'
                 vocab := hmInsert st.vocab (hmLen st.vocab) (b1 ++ b2)
                 merges := hmInsert st.merges pair (hmLen st.vocab) }

/-- The `for i in 0..num_merges` loop of `train`; a panic in any round aborts
the whole run. -/
def trainLoop (sel : List ((ℕ × ℕ) × ℕ) → Option (ℕ × ℕ)) :
    ℕ → TrainState → Option TrainState
  | 0, st => some st
  | n + 1, st => (trainStep sel st).bind fun st' => trainLoop sel n st'

/-- `train` (`tokenizer.rs` lines 57-95) on a freshly constructed
`BasicTokenizer` (as in `main.rs` and every test): convert the corpus to bytes,
seed the vocabulary, then run `vocab_size - 256` merge rounds. -/
def train (sel : List ((ℕ × ℕ) × ℕ) → Option (ℕ × ℕ)) (text : List ℕ)
    (vocab_size : ℕ) : Option TrainState :=
  trainLoop sel (trainNumMerges vocab_size) ⟨text, baseVocab, []⟩

/-- The rank used by `encode`'s selection:
`self.merges.get(&pair).unwrap_or(&u32::MAX)`. -/
def rankOf (merges : List ((ℕ × ℕ) × ℕ)) (p : ℕ × ℕ) : ℕ :=
  match hmGet merges p with
  | some m => m
  | none => 2 ^ 32 - 1

/-- `bigrams.iter().min_by_key(..)`: the first element of the list attaining
the minimal rank (`min_by_key` returns the first minimal element). -/
def minByRank (merges : List ((ℕ × ℕ) × ℕ)) (bs : List (ℕ × ℕ)) :
    Option (ℕ × ℕ) :=
  match bs with
  | [] => none
  | q :: rest =>
    some (rest.foldl (fun best r => if rankOf merges r < rankOf merges best then r else best) q)

/-- One iteration of `encode`'s `while ids.len() > 1` loop (`tokenizer.rs`
lines 100-116): `none` means the loop stops (length `≤ 1`, or the selected
pair is absent from the merge table, i.e. the `break` branches). -/
def encodeStep (merges : List ((ℕ × ℕ) × ℕ)) (ids : List ℕ) :
    Option (List ℕ) :=
  if 1 < ids.length then
    (minByRank merges (bigrams ids)).bind fun p =>
      (hmGet merges p).bind fun m => merge ids p m
  else none

/-- The `encode` loop with explicit fuel; when the step stops, the current
sequence is returned. -/
def encodeLoop (merges : List ((ℕ × ℕ) × ℕ)) : ℕ → List ℕ → List ℕ
  | 0, ids => ids
  | n + 1, ids =>
    match encodeStep merges ids with
    | none => ids
    | some ids' => encodeLoop merges n ids'

/-- The largest minted id occurring in the merge table (`0` if empty). -/
def maxMergeVal (merges : List ((ℕ × ℕ) × ℕ)) : ℕ :=
  merges.foldr (fun e acc => max e.2 acc) 0

/-- A strict upper bound on every id that can ever occur while encoding a byte
sequence with the table `merges`. -/
def encodeK (merges : List ((ℕ × ℕ) × ℕ)) : ℕ :=
  maxMergeVal merges + 257

/-- Fuel sufficient for `encode`'s loop to reach its exit condition (proved
below for any merge table produced by training). -/
def encodeBound (merges : List ((ℕ × ℕ) × ℕ)) (ids : List ℕ) : ℕ :=
  (ids.length + 1) * encodeK merges

/-- `encode` (`tokenizer.rs` lines 97-118): repeatedly merge the pair of
lowest rank until no adjacent pair is in the merge table. -/
def encode (merges : List ((ℕ × ℕ) × ℕ)) (text : List ℕ) : List ℕ :=
  encodeLoop merges (encodeBound merges text) text

/-- A UTF-8 continuation byte, `0x80..=0xBF`. -/
def utf8Cont (b : ℕ) : Bool :=
  decide (0x80 ≤ b ∧ b ≤ 0xBF)

/-- Well-formed UTF-8, exactly the byte sequences accepted by Rust's
`String::from_utf8` (RFC 3629: no overlong forms, no surrogates, no code
points above U+10FFFF). -/
def utf8Valid : List ℕ → Bool
  | [] => true
  | b :: rest =>
    if b ≤ 0x7F then utf8Valid rest
    else if 0xC2 ≤ b ∧ b ≤ 0xDF then
      match rest with
      | c1 :: rest' => utf8Cont c1 && utf8Valid rest'
      | _ => false
    else if b = 0xE0 then
      match rest with
      | c1 :: c2 :: rest' =>
        decide (0xA0 ≤ c1 ∧ c1 ≤ 0xBF) && utf8Cont c2 && utf8Valid rest'
      | _ => false
    else if (0xE1 ≤ b ∧ b ≤ 0xEC) ∨ b = 0xEE ∨ b = 0xEF then
      match rest with
      | c1 :: c2 :: rest' => utf8Cont c1 && utf8Cont c2 && utf8Valid rest'
      | _ => false
    else if b = 0xED then
      match rest with
      | c1 :: c2 :: rest' =>
        decide (0x80 ≤ c1 ∧ c1 ≤ 0x9F) && utf8Cont c2 && utf8Valid rest'
      | _ => false
    else if b = 0xF0 then
      match rest with
      | c1 :: c2 :: c3 :: rest' =>
        decide (0x90 ≤ c1 ∧ c1 ≤ 0xBF) && utf8Cont c2 && utf8Cont c3 && utf8Valid rest'
      | _ => false
    else if 0xF1 ≤ b ∧ b ≤ 0xF3 then
      match rest with
      | c1 :: c2 :: c3 :: rest' =>
        utf8Cont c1 && utf8Cont c2 && utf8Cont c3 && utf8Valid rest'
      | _ => false
    else if b = 0xF4 then
      match rest with
      | c1 :: c2 :: c3 :: rest' =>
        decide (0x80 ≤ c1 ∧ c1 ≤ 0x8F) && utf8Cont c2 && utf8Cont c3 && utf8Valid rest'
      | _ => false
    else false

/-- The two ways `decode` can panic: `self.vocab[idx]` on an id that is not in
the vocabulary, and `String::from_utf8(..).unwrap()` on a byte buffer that is
not valid UTF-8. -/
inductive DecodeError : Type where
  | missingId : DecodeError
  | invalidUtf8 : DecodeError

/-- The buffer-building loop of `decode` (`tokenizer.rs` lines 121-124):
concatenate each id's vocabulary byte string in order; an id absent from the
vocabulary panics. -/
def collectBytes (vocab : List (ℕ × List ℕ)) : List ℕ → Option (List ℕ)
  | [] => some []
  | i :: rest =>
    match hmGet vocab i, collectBytes vocab rest with
    | some b, some bs => some (b ++ bs)
    | _, _ => none

/-- `decode` (`tokenizer.rs` lines 120-126). -/
def decode (vocab : List (ℕ × List ℕ)) (ids : List ℕ) :
    Except DecodeError (List ℕ) :=
  match collectBytes vocab ids with
  | none => Except.error DecodeError.missingId
  | some buf =>
    if utf8Valid buf then Except.ok buf else Except.error DecodeError.invalidUtf8

/-- The merge-table well-formedness established by training: every recorded
merge mints an id strictly larger than both of its components. -/
def MergesOk (merges : List ((ℕ × ℕ) × ℕ)) : Prop :=
  ∀ a b m, hmGet merges (a, b) = some m → a < m ∧ b < m

/-- The vocabulary invariants of claim C9, for a training run that performed
`rounds` merge rounds. -/
def VocabOk (st : TrainState) (rounds : ℕ) : Prop :=
  hmLen st.vocab = 256 + rounds ∧
  (∀ i, i < 256 → hmGet st.vocab i = some [i]) ∧
  (∀ id, (hmGet st.vocab id).isSome ↔ id < hmLen st.vocab) ∧
  (∀ id, 256 ≤ id → (hmGet st.vocab id).isSome →
    ∃ a b ba bb, ((a, b), id) ∈ st.merges ∧ hmGet st.vocab a = some ba ∧
      hmGet st.vocab b = some bb ∧ hmGet st.vocab id = some (ba ++ bb))

/-- The element of `l` at position `l.length - 2` (the left half of the final
adjacent pair), used as part of the termination measure of `encode`. -/
def penult (l : List ℕ) : ℕ :=
  l.getD (l.length - 2) 0

/-- Termination measure for `encode`'s loop: lexicographically, the length of
the sequence, then (for equal lengths) how much room the left half of the
final pair still has below `encodeK`. -/
def phi (merges : List ((ℕ × ℕ) × ℕ)) (l : List ℕ) : ℕ :=
  if l.length ≤ 1 then 0
  else l.length * encodeK merges + (encodeK merges - 1 - penult l)

/-- The conclusion of the (amended) claim C10: encoding any byte sequence with
the table `merges` reaches the loop exit (the returned sequence is final), and
each loop iteration either stops or merges a pair, which never lengthens the
sequence and preserves its length only when the selected pair occurs exactly
once, as the final two elements (the trailing duplicate appended by
`merge`). -/
def EncodeOk (merges : List ((ℕ × ℕ) × ℕ)) (text : List ℕ) : Prop :=
  encodeStep merges (encode merges text) = none ∧
  (∀ ids out, encodeStep merges ids = some out → out.length ≤ ids.length) ∧
  (∀ ids out, encodeStep merges ids = some out → out.length = ids.length →
    ∃ a b m init, hmGet merges (a, b) = some m ∧ ids = init ++ [a, b] ∧
      out = init ++ [m, b])

/-! ## Association-list lemmas -/

theorem hmGet_cons {κ β : Type} [DecidableEq κ] (p : κ × β) (m : List (κ × β)) (k : κ) :
    hmGet (p :: m) k = if p.1 = k then some p.2 else hmGet m k := rfl

theorem hmGet_isSome_iff_mem {κ β : Type} [DecidableEq κ] (m : List (κ × β)) (k : κ) :
    (hmGet m k).isSome ↔ k ∈ hmKeys m := by
  induction m with
  | nil => simp [hmGet, hmKeys]
  | cons p rest ih =>
    by_cases h : p.1 = k
    · simp [hmGet, h, hmKeys]
    · simp [hmGet, h, hmKeys, ih]
      intro hk
      exact absurd hk.symm h

theorem countDistinct_cons_of_not_mem {κ : Type} [DecidableEq κ] {k : κ} {l : List κ}
    (h : k ∉ l) : countDistinct (k :: l) = countDistinct l + 1 := by
  simp [countDistinct, h]

theorem countDistinct_eq_length_of_nodup {κ : Type} [DecidableEq κ] {l : List κ}
    (h : l.Nodup) : countDistinct l = l.length := by
  induction l with
  | nil => rfl
  | cons k rest ih =>
    rcases List.nodup_cons.mp h with ⟨hk, hrest⟩
    simp [countDistinct, hk, ih hrest]

theorem hmLen_cons_of_not_mem {κ β : Type} [DecidableEq κ] {m : List (κ × β)} {k : κ}
    (v : β) (h : k ∉ hmKeys m) : hmLen ((k, v) :: m) = hmLen m + 1 := by
  have : hmKeys ((k, v) :: m) = k :: hmKeys m := rfl
  simp [hmLen, this, countDistinct_cons_of_not_mem h]

theorem hmGet_le_maxMergeVal {merges : List ((ℕ × ℕ) × ℕ)} {p : ℕ × ℕ} {m : ℕ}
    (h : hmGet merges p = some m) : m ≤ maxMergeVal merges := by
  induction merges with
  | nil => simp [hmGet] at h
  | cons q rest ih =>
    have hmax : maxMergeVal (q :: rest) = max q.2 (maxMergeVal rest) := rfl
    rw [hmGet_cons] at h
    by_cases hq : q.1 = p
    · rw [if_pos hq] at h
      cases h
      rw [hmax]
      exact le_max_left _ _
    · rw [if_neg hq] at h
      rw [hmax]
      exact le_trans (ih h) (le_max_right _ _)

/-! ## The seeded vocabulary -/

theorem foldl_insert_eq (l : List ℕ) (acc : List (ℕ × List ℕ)) :
    l.foldl (fun m i => hmInsert m i [i]) acc
      = (l.reverse.map (fun i => (i, [i]))) ++ acc := by
  induction l generalizing acc with
  | nil => simp
  | cons x l' ih =>
    rw [List.foldl_cons, ih, List.reverse_cons, List.map_append, List.append_assoc]
    rfl

theorem hmGet_mapSingleton (l : List ℕ) (k : ℕ) :
    hmGet (l.map (fun i => (i, [i]))) k = if k ∈ l then some [k] else none := by
  induction l with
  | nil => simp [hmGet]
  | cons x l' ih =>
    by_cases h : x = k
    · subst h
      simp [hmGet]
    · simp only [List.map_cons, hmGet_cons, if_neg h, ih]
      have : (k ∈ x :: l') ↔ (k ∈ l') := by
        simp [List.mem_cons]
        intro hk
        exact absurd hk.symm h
      simp [this]

theorem baseVocab_get (k : ℕ) :
    hmGet baseVocab k = if k < 256 then some [k] else none := by
  have h1 : baseVocab = ((List.range 256).reverse.map (fun i => (i, [i]))) := by
    have := foldl_insert_eq (List.range 256) []
    simpa [baseVocab] using this
  rw [h1, hmGet_mapSingleton]
  simp [List.mem_reverse, List.mem_range]

theorem baseVocab_keys : hmKeys baseVocab = (List.range 256).reverse := by
  have h1 : baseVocab = ((List.range 256).reverse.map (fun i => (i, [i]))) := by
    have := foldl_insert_eq (List.range 256) []
    simpa [baseVocab] using this
  rw [h1]
  simp only [hmKeys, List.map_map]
  have hcomp : (Prod.fst ∘ fun i : ℕ => (i, [i])) = id := rfl
  rw [hcomp, List.map_id]

theorem baseVocab_len : hmLen baseVocab = 256 := by
  have hnd : ((List.range 256).reverse : List ℕ).Nodup :=
    List.nodup_reverse.mpr (List.nodup_range 256)
  simp [hmLen, baseVocab_keys, countDistinct_eq_length_of_nodup hnd]

/-! ## Validity of the selection functions -/

theorem le_maxCount {stats : List ((ℕ × ℕ) × ℕ)} {q : (ℕ × ℕ) × ℕ} (h : q ∈ stats) :
    q.2 ≤ maxCount stats := by
  induction stats with
  | nil => cases h
  | cons p rest ih =>
    have hmax : maxCount (p :: rest) = max p.2 (maxCount rest) := rfl
    rcases List.mem_cons.mp h with h | h
    · subst h
      rw [hmax]
      exact le_max_left _ _
    · rw [hmax]
      exact le_trans (ih h) (le_max_right _ _)

theorem maxCount_attained {stats : List ((ℕ × ℕ) × ℕ)} (h : stats ≠ []) :
    ∃ q ∈ stats, q.2 = maxCount stats := by
  induction stats with
  | nil => exact absurd rfl h
  | cons p rest ih =>
    have hmax : maxCount (p :: rest) = max p.2 (maxCount rest) := rfl
    rcases eq_or_ne rest [] with hr | hr
    · subst hr
      refine ⟨p, List.mem_cons_self _ _, ?_⟩
      simp [maxCount]
    · rcases le_or_lt (maxCount rest) p.2 with hle | hlt
      · exact ⟨p, List.mem_cons_self _ _, by rw [hmax, max_eq_left hle]⟩
      · rcases ih hr with ⟨q, hq, hqe⟩
        exact ⟨q, List.mem_cons_of_mem _ hq, by rw [hmax, hqe, max_eq_right (le_of_lt hlt)]⟩

theorem validSel_selFirstMax : ValidSel selFirstMax := by
  constructor
  · intro stats h
    by_contra hne
    rcases maxCount_attained hne with ⟨q, hq, hqe⟩
    have hnone : stats.find? (fun p => p.2 == maxCount stats) = none := by
      unfold selFirstMax at h
      cases hf : stats.find? (fun p => p.2 == maxCount stats) with
      | none => rfl
      | some q' => rw [hf] at h; simp at h
    have := List.find?_eq_none.mp hnone q hq
    simp [hqe] at this
  · intro stats p h
    unfold selFirstMax at h
    cases hf : stats.find? (fun q => q.2 == maxCount stats) with
    | none => rw [hf] at h; simp at h
    | some q =>
      rw [hf] at h
      simp at h
      have hqmem : q ∈ stats := List.mem_of_find?_eq_some hf
      have hqval : q.2 = maxCount stats := by
        have := List.find?_some hf
        simpa using this
      refine ⟨maxCount stats, ?_, fun r hr => le_maxCount hr⟩
      have : (p, maxCount stats) = q := by
        rw [← h, ← hqval]
      rw [this]
      exact hqmem

theorem validSel_selLastMax : ValidSel selLastMax := by
  rcases validSel_selFirstMax with ⟨h1, h2⟩
  constructor
  · intro stats h
    have := h1 stats.reverse h
    simpa using List.reverse_eq_nil_iff.mp this
  · intro stats p h
    rcases h2 stats.reverse p h with ⟨c, hc, hmaxi⟩
    exact ⟨c, List.mem_reverse.mp hc, fun q hq => hmaxi q (List.mem_reverse.mpr hq)⟩

/-! ## Lemmas about `merge` -/

theorem mergeGo_nil (pair : ℕ × ℕ) (idx : ℕ) : mergeGo pair idx [] = [] := rfl

theorem mergeGo_one (pair : ℕ × ℕ) (idx x : ℕ) : mergeGo pair idx [x] = [] := rfl

theorem mergeGo_cons_cons (pair : ℕ × ℕ) (idx x y : ℕ) (rest : List ℕ) :
    mergeGo pair idx (x :: y :: rest)
      = if pair.1 = x ∧ pair.2 = y then idx :: mergeGo pair idx rest
        else x :: mergeGo pair idx (y :: rest) := rfl

theorem specMerge_cons_cons (pair : ℕ × ℕ) (idx x y : ℕ) (rest : List ℕ) :
    specMerge pair idx (x :: y :: rest)
      = if pair.1 = x ∧ pair.2 = y then idx :: specMerge pair idx rest
        else x :: specMerge pair idx (y :: rest) := rfl

theorem bigrams_cons_cons (x y : ℕ) (rest : List ℕ) :
    bigrams (x :: y :: rest) = (x, y) :: bigrams (y :: rest) := rfl

theorem lastElem_concat : ∀ (l : List ℕ) (x a : ℕ), lastElem x (l ++ [a]) = a := by
  intro l
  induction l with
  | nil => intro x a; rfl
  | cons c l' ih => intro x a; exact ih c a

theorem lastElem_mem : ∀ (l : List ℕ) (x : ℕ), lastElem x l ∈ x :: l := by
  intro l
  induction l with
  | nil => intro x; simp [lastElem]
  | cons y l' ih =>
    intro x
    show lastElem y l' ∈ x :: y :: l'
    exact List.mem_cons_of_mem x (ih y)

theorem dropLast_append_lastElem :
    ∀ (rest : List ℕ) (x : ℕ), (x :: rest).dropLast ++ [lastElem x rest] = x :: rest := by
  intro rest
  induction rest with
  | nil => intro x; rfl
  | cons y rest' ih =>
    intro x
    show x :: ((y :: rest').dropLast ++ [lastElem y rest']) = x :: y :: rest'
    rw [ih y]

theorem lastElem_of_concat :
    ∀ (l : List ℕ) (a x : ℕ) (rest : List ℕ), x :: rest = l ++ [a] → lastElem x rest = a := by
  intro l a x rest h
  cases l with
  | nil =>
    injection h with h1 h2
    subst h1; subst h2
    rfl
  | cons c l' =>
    injection h with h1 h2
    rw [h1, h2]
    exact lastElem_concat l' c a

theorem merge_nil (pair : ℕ × ℕ) (idx : ℕ) : merge [] pair idx = none := rfl

theorem merge_cons (x : ℕ) (rest : List ℕ) (pair : ℕ × ℕ) (idx : ℕ) :
    merge (x :: rest) pair idx
      = some (mergeGo pair idx (x :: rest) ++ [lastElem x rest]) := rfl

theorem mergeGo_not_mem (pair : ℕ × ℕ) (idx : ℕ) :
    ∀ (l : List ℕ), pair ∉ bigrams l → mergeGo pair idx l = l.dropLast := by
  intro l
  induction l with
  | nil => intro _; rfl
  | cons x t ih =>
    intro h
    cases t with
    | nil => rfl
    | cons y rest =>
      have hxy : ¬(pair.1 = x ∧ pair.2 = y) := by
        rintro ⟨h1, h2⟩
        apply h
        rw [bigrams_cons_cons]
        have hp : pair = (x, y) := Prod.ext_iff.mpr ⟨h1, h2⟩
        rw [hp]
        exact List.mem_cons_self _ _
      have ht : pair ∉ bigrams (y :: rest) := by
        intro hmem
        apply h
        rw [bigrams_cons_cons]
        exact List.mem_cons_of_mem _ hmem
      rw [mergeGo_cons_cons, if_neg hxy, ih ht]
      rfl

theorem merge_self_of_not_mem {s : List ℕ} {pair : ℕ × ℕ} (m : ℕ) (hne : s ≠ [])
    (habs : pair ∉ bigrams s) : merge s pair m = some s := by
  cases s with
  | nil => exact absurd rfl hne
  | cons x rest =>
    rw [merge_cons, mergeGo_not_mem _ _ _ habs, dropLast_append_lastElem]

theorem mergeGo_length_aux (pair : ℕ × ℕ) (idx : ℕ) :
    ∀ (n : ℕ) (l : List ℕ), l.length ≤ n → l ≠ [] →
      (mergeGo pair idx l).length + 1 ≤ l.length := by
  intro n
  induction n with
  | zero =>
    intro l hlen hne
    cases l with
    | nil => exact absurd rfl hne
    | cons x t => simp at hlen
  | succ k ih =>
    intro l hlen hne
    cases l with
    | nil => exact absurd rfl hne
    | cons x t =>
      cases t with
      | nil => simp [mergeGo_one]
      | cons y rest =>
        by_cases hc : pair.1 = x ∧ pair.2 = y
        · rw [mergeGo_cons_cons, if_pos hc]
          cases rest with
          | nil => simp [mergeGo_nil]
          | cons z rest' =>
            have hr : (z :: rest').length ≤ k := by
              simp at hlen ⊢; omega
            have := ih (z :: rest') hr (by simp)
            simp at this ⊢
            omega
        · rw [mergeGo_cons_cons, if_neg hc]
          have hr : (y :: rest).length ≤ k := by
            simp at hlen ⊢; omega
          have := ih (y :: rest) hr (by simp)
          simp at this ⊢
          omega

theorem mergeGo_length {pair : ℕ × ℕ} {idx : ℕ} {l : List ℕ} (hne : l ≠ []) :
    (mergeGo pair idx l).length + 1 ≤ l.length :=
  mergeGo_length_aux pair idx l.length l le_rfl hne

theorem mergeGo_eq_length_aux (pair : ℕ × ℕ) (idx : ℕ) :
    ∀ (n : ℕ) (l : List ℕ), l.length ≤ n → pair ∈ bigrams l →
      (mergeGo pair idx l).length + 1 = l.length →
      ∃ init, l = init ++ [pair.1, pair.2] ∧ mergeGo pair idx l = init ++ [idx] := by
  intro n
  induction n with
  | zero =>
    intro l hlen hmem heq
    cases l with
    | nil => simp [bigrams] at hmem
    | cons x t => simp at hlen
  | succ k ih =>
    intro l hlen hmem heq
    cases l with
    | nil => simp [bigrams] at hmem
    | cons x t =>
      cases t with
      | nil => simp [bigrams] at hmem
      | cons y rest =>
        by_cases hc : pair.1 = x ∧ pair.2 = y
        · rw [mergeGo_cons_cons, if_pos hc] at heq ⊢
          cases rest with
          | nil =>
            refine ⟨[], ?_, ?_⟩
            · simp [hc.1, hc.2]
            · simp [mergeGo_nil]
          | cons z rest' =>
            exfalso
            have hlen2 : (mergeGo pair idx (z :: rest')).length + 1 ≤ (z :: rest').length :=
              mergeGo_length_aux pair idx k (z :: rest') (by simp at hlen ⊢; omega) (by simp)
            simp at heq hlen2
            omega
        · rw [mergeGo_cons_cons, if_neg hc] at heq ⊢
          have hmem' : pair ∈ bigrams (y :: rest) := by
            rw [bigrams_cons_cons] at hmem
            rcases List.mem_cons.mp hmem with h | h
            · exfalso
              apply hc
              rw [h]
              exact ⟨rfl, rfl⟩
            · exact h
          have heq' : (mergeGo pair idx (y :: rest)).length + 1 = (y :: rest).length := by
            simp at heq ⊢; omega
          rcases ih (y :: rest) (by simp at hlen ⊢; omega) hmem' heq' with ⟨init', hi1, hi2⟩
          refine ⟨x :: init', ?_, ?_⟩
          · rw [List.cons_append, ← hi1]
          · rw [List.cons_append, ← hi2]

theorem mergeGo_eq_length {pair : ℕ × ℕ} {idx : ℕ} {l : List ℕ}
    (hmem : pair ∈ bigrams l) (heq : (mergeGo pair idx l).length + 1 = l.length) :
    ∃ init, l = init ++ [pair.1, pair.2] ∧ mergeGo pair idx l = init ++ [idx] :=
  mergeGo_eq_length_aux pair idx l.length l le_rfl hmem heq

theorem mergeGo_mem_aux (pair : ℕ × ℕ) (idx : ℕ) :
    ∀ (n : ℕ) (l : List ℕ), l.length ≤ n → ∀ z ∈ mergeGo pair idx l, z = idx ∨ z ∈ l := by
  intro n
  induction n with
  | zero =>
    intro l hlen z hz
    cases l with
    | nil => simp [mergeGo_nil] at hz
    | cons x t => simp at hlen
  | succ k ih =>
    intro l hlen z hz
    cases l with
    | nil => simp [mergeGo_nil] at hz
    | cons x t =>
      cases t with
      | nil => simp [mergeGo_one] at hz
      | cons y rest =>
        by_cases hc : pair.1 = x ∧ pair.2 = y
        · rw [mergeGo_cons_cons, if_pos hc] at hz
          rcases List.mem_cons.mp hz with h | h
          · exact Or.inl h
          · rcases ih rest (by simp at hlen ⊢; omega) z h with h' | h'
            · exact Or.inl h'
            · exact Or.inr (by simp [h'])
        · rw [mergeGo_cons_cons, if_neg hc] at hz
          rcases List.mem_cons.mp hz with h | h
          · exact Or.inr (by simp [h])
          · rcases ih (y :: rest) (by simp at hlen ⊢; omega) z h with h' | h'
            · exact Or.inl h'
            · exact Or.inr (List.mem_cons_of_mem _ h')

theorem mergeGo_mem {pair : ℕ × ℕ} {idx : ℕ} {l : List ℕ} {z : ℕ}
    (hz : z ∈ mergeGo pair idx l) : z = idx ∨ z ∈ l :=
  mergeGo_mem_aux pair idx l.length l le_rfl z hz

theorem specMerge_mergeGo_concat_aux (a b m : ℕ) (hab : a ≠ b) :
    ∀ (n : ℕ) (init : List ℕ), init.length ≤ n →
      ∃ pre, specMerge (a, b) m (init ++ [a, b]) = pre ++ [m] ∧
             mergeGo (a, b) m (init ++ [a, b]) = pre ++ [m] := by
  intro n
  induction n with
  | zero =>
    intro init hlen
    have h0 : init = [] := List.length_eq_zero.mp (Nat.le_zero.mp hlen)
    subst h0
    refine ⟨[], ?_, ?_⟩
    · simp only [List.nil_append]
      rw [specMerge_cons_cons, if_pos ⟨rfl, rfl⟩]
      rfl
    · simp only [List.nil_append]
      rw [mergeGo_cons_cons, if_pos ⟨rfl, rfl⟩]
      rfl
  | succ k ih =>
    intro init hlen
    cases init with
    | nil =>
      refine ⟨[], ?_, ?_⟩
      · simp only [List.nil_append]
        rw [specMerge_cons_cons, if_pos ⟨rfl, rfl⟩]
        rfl
      · simp only [List.nil_append]
        rw [mergeGo_cons_cons, if_pos ⟨rfl, rfl⟩]
        rfl
    | cons x init' =>
      cases init' with
      | nil =>
        have hc : ¬(((a, b) : ℕ × ℕ).1 = x ∧ ((a, b) : ℕ × ℕ).2 = a) := by
          rintro ⟨h1, h2⟩
          exact hab h2.symm
        rcases ih [] (Nat.zero_le k) with ⟨pre, hs, hg⟩
        simp only [List.nil_append] at hs hg
        refine ⟨x :: pre, ?_, ?_⟩
        · simp only [List.cons_append, List.nil_append]
          rw [specMerge_cons_cons, if_neg hc, hs]
        · simp only [List.cons_append, List.nil_append]
          rw [mergeGo_cons_cons, if_neg hc, hg]
      | cons y init'' =>
        by_cases hc : ((a, b) : ℕ × ℕ).1 = x ∧ ((a, b) : ℕ × ℕ).2 = y
        · rcases ih init'' (by simp at hlen ⊢; omega) with ⟨pre, hs, hg⟩
          refine ⟨m :: pre, ?_, ?_⟩
          · simp only [List.cons_append]
            rw [specMerge_cons_cons, if_pos hc, hs]
          · simp only [List.cons_append]
            rw [mergeGo_cons_cons, if_pos hc, hg]
        · rcases ih (y :: init'') (by simp at hlen ⊢; omega) with ⟨pre, hs, hg⟩
          refine ⟨x :: pre, ?_, ?_⟩
          · simp only [List.cons_append] at hs hg ⊢
            rw [specMerge_cons_cons, if_neg hc, hs]
          · simp only [List.cons_append] at hs hg ⊢
            rw [mergeGo_cons_cons, if_neg hc, hg]

theorem specMerge_mergeGo_concat {a b m : ℕ} (hab : a ≠ b) (init : List ℕ) :
    ∃ pre, specMerge (a, b) m (init ++ [a, b]) = pre ++ [m] ∧
           mergeGo (a, b) m (init ++ [a, b]) = pre ++ [m] :=
  specMerge_mergeGo_concat_aux a b m hab init.length init le_rfl

/-! ## The training invariants -/

theorem trainStep_inv {sel : List ((ℕ × ℕ) × ℕ) → Option (ℕ × ℕ)} {st st' : TrainState}
    (h : trainStep sel st = some st') :
    ∃ pair ids' b1 b2,
      sel (get_stats st.ids) = some pair ∧
      merge st.ids pair (hmLen st.vocab) = some ids' ∧
      hmGet st.vocab pair.1 = some b1 ∧
      hmGet st.vocab pair.2 = some b2 ∧
      st' = ⟨ids', hmInsert st.vocab (hmLen st.vocab) (b1 ++ b2),
             hmInsert st.merges pair (hmLen st.vocab)⟩ := by
  unfold trainStep at h
  rcases Option.bind_eq_some.mp h with ⟨pair, hsel, h⟩
  rcases Option.bind_eq_some.mp h with ⟨ids', hmerge, h⟩
  rcases Option.bind_eq_some.mp h with ⟨b1, hb1, h⟩
  rcases Option.bind_eq_some.mp h with ⟨b2, hb2, h⟩
  injection h with h
  exact ⟨pair, ids', b1, b2, hsel, hmerge, hb1, hb2, h.symm⟩

theorem vocabOk_step {sel : List ((ℕ × ℕ) × ℕ) → Option (ℕ × ℕ)} {st st' : TrainState}
    {n : ℕ} (hinv : VocabOk st n) (h : trainStep sel st = some st') :
    VocabOk st' (n + 1) := by
  obtain ⟨pair, ids', b1, b2, hsel, hmerge, hb1, hb2, hst⟩ := trainStep_inv h
  obtain ⟨hlen, hbase, hdense, hmint⟩ := hinv
  have hp1 : pair.1 < hmLen st.vocab := (hdense pair.1).mp (by simp [hb1])
  have hp2 : pair.2 < hmLen st.vocab := (hdense pair.2).mp (by simp [hb2])
  have hLnotmem : hmLen st.vocab ∉ hmKeys st.vocab := by
    intro hmem
    have h1 := (hmGet_isSome_iff_mem st.vocab (hmLen st.vocab)).mpr hmem
    have h2 := (hdense _).mp h1
    omega
  have hlen' : hmLen st'.vocab = hmLen st.vocab + 1 := by
    rw [hst]
    exact hmLen_cons_of_not_mem _ hLnotmem
  have hget' : ∀ id, hmGet st'.vocab id
      = if hmLen st.vocab = id then some (b1 ++ b2) else hmGet st.vocab id := by
    intro id
    rw [hst]
    exact hmGet_cons _ _ _
  refine ⟨?_, ?_, ?_, ?_⟩
  · rw [hlen', hlen]
    omega
  · intro i hi
    rw [hget' i, if_neg (by omega)]
    exact hbase i hi
  · intro id
    rw [hget' id, hlen']
    by_cases hid : hmLen st.vocab = id
    · rw [if_pos hid]
      simp
      omega
    · rw [if_neg hid, hdense id]
      omega
  · intro id hid256 hsome
    rw [hget' id] at hsome
    by_cases hidL : hmLen st.vocab = id
    · refine ⟨pair.1, pair.2, b1, b2, ?_, ?_, ?_, ?_⟩
      · rw [hst]
        have hpe : ((pair.1, pair.2), id) = (pair, hmLen st.vocab) := by
          rw [← hidL]
        rw [hpe]
        exact List.mem_cons_self _ _
      · rw [hget' pair.1, if_neg (by omega)]
        exact hb1
      · rw [hget' pair.2, if_neg (by omega)]
        exact hb2
      · rw [hget' id, if_pos hidL]
    · rw [if_neg hidL] at hsome
      obtain ⟨a, b, ba, bb, hmem, ha, hb, hcid⟩ := hmint id hid256 hsome
      have haL : a < hmLen st.vocab := (hdense a).mp (by simp [ha])
      have hbL : b < hmLen st.vocab := (hdense b).mp (by simp [hb])
      refine ⟨a, b, ba, bb, ?_, ?_, ?_, ?_⟩
      · rw [hst]
        exact List.mem_cons_of_mem _ hmem
      · rw [hget' a, if_neg (by omega)]
        exact ha
      · rw [hget' b, if_neg (by omega)]
        exact hb
      · rw [hget' id, if_neg hidL]
        exact hcid

theorem vocabOk_loop {sel : List ((ℕ × ℕ) × ℕ) → Option (ℕ × ℕ)} :
    ∀ (n : ℕ) (st st' : TrainState) (k : ℕ),
      trainLoop sel n st = some st' → VocabOk st k → VocabOk st' (k + n) := by
  intro n
  induction n with
  | zero =>
    intro st st' k h hinv
    unfold trainLoop at h
    injection h with h
    rw [← h]
    simpa using hinv
  | succ n ih =>
    intro st st' k h hinv
    unfold trainLoop at h
    rcases Option.bind_eq_some.mp h with ⟨st1, hstep, hloop⟩
    have h1 := vocabOk_step hinv hstep
    have h2 := ih st1 st' (k + 1) hloop h1
    rw [show k + (n + 1) = k + 1 + n by omega]
    exact h2

theorem vocabOk_init (text : List ℕ) : VocabOk ⟨text, baseVocab, []⟩ 0 := by
  refine ⟨?_, ?_, ?_, ?_⟩
  · simpa using baseVocab_len
  · intro i hi
    show hmGet baseVocab i = some [i]
    rw [baseVocab_get, if_pos hi]
  · intro id
    show (hmGet baseVocab id).isSome ↔ id < hmLen baseVocab
    rw [baseVocab_get, baseVocab_len]
    by_cases hid : id < 256
    · simp [hid]
    · simp [hid]
  · intro id h256 hsome
    exfalso
    have : hmGet baseVocab id = none := by
      rw [baseVocab_get, if_neg (by omega)]
    rw [show (⟨text, baseVocab, []⟩ : TrainState).vocab = baseVocab from rfl] at hsome
    rw [this] at hsome
    simp at hsome

/-! ## Termination of the encode loop -/

theorem encodeLoop_zero (M : List ((ℕ × ℕ) × ℕ)) (ids : List ℕ) :
    encodeLoop M 0 ids = ids := rfl

theorem encodeLoop_succ (M : List ((ℕ × ℕ) × ℕ)) (n : ℕ) (ids : List ℕ) :
    encodeLoop M (n + 1) ids
      = match encodeStep M ids with
        | none => ids
        | some ids' => encodeLoop M n ids' := rfl

theorem minByRank_foldl_mem (M : List ((ℕ × ℕ) × ℕ)) :
    ∀ (rest : List (ℕ × ℕ)) (q : ℕ × ℕ),
      rest.foldl (fun best r => if rankOf M r < rankOf M best then r else best) q
        ∈ q :: rest := by
  intro rest
  induction rest with
  | nil => intro q; simp
  | cons r rest' ih =>
    intro q
    simp only [List.foldl_cons]
    by_cases hc : rankOf M r < rankOf M q
    · rw [if_pos hc]
      rcases List.mem_cons.mp (ih r) with h | h
      · rw [h]
        exact List.mem_cons_of_mem _ (List.mem_cons_self _ _)
      · exact List.mem_cons_of_mem _ (List.mem_cons_of_mem _ h)
    · rw [if_neg hc]
      rcases List.mem_cons.mp (ih q) with h | h
      · rw [h]
        exact List.mem_cons_self _ _
      · exact List.mem_cons_of_mem _ (List.mem_cons_of_mem _ h)

theorem minByRank_mem {M : List ((ℕ × ℕ) × ℕ)} {bs : List (ℕ × ℕ)} {p : ℕ × ℕ}
    (h : minByRank M bs = some p) : p ∈ bs := by
  cases bs with
  | nil => simp [minByRank] at h
  | cons q rest =>
    unfold minByRank at h
    injection h with h
    rw [← h]
    exact minByRank_foldl_mem M rest q

theorem encodeStep_none_short {M : List ((ℕ × ℕ) × ℕ)} {ids : List ℕ}
    (h : ids.length ≤ 1) : encodeStep M ids = none := by
  unfold encodeStep
  rw [if_neg (by omega)]

theorem encodeStep_inv {M : List ((ℕ × ℕ) × ℕ)} {ids out : List ℕ}
    (h : encodeStep M ids = some out) :
    1 < ids.length ∧ ∃ p m, p ∈ bigrams ids ∧ hmGet M p = some m ∧
      merge ids p m = some out := by
  unfold encodeStep at h
  by_cases hlen : 1 < ids.length
  · rw [if_pos hlen] at h
    rcases Option.bind_eq_some.mp h with ⟨p, hp, h⟩
    rcases Option.bind_eq_some.mp h with ⟨m, hm, h⟩
    exact ⟨hlen, p, m, minByRank_mem hp, hm, h⟩
  · rw [if_neg hlen] at h
    exact Option.noConfusion h

theorem merge_inv {ids out : List ℕ} {pair : ℕ × ℕ} {idx : ℕ}
    (h : merge ids pair idx = some out) :
    ∃ x rest, ids = x :: rest ∧ out = mergeGo pair idx ids ++ [lastElem x rest] := by
  cases ids with
  | nil => simp [merge_nil] at h
  | cons x rest =>
    rw [merge_cons] at h
    injection h with h
    exact ⟨x, rest, rfl, h.symm⟩

theorem encodeStep_length {M : List ((ℕ × ℕ) × ℕ)} {ids out : List ℕ}
    (h : encodeStep M ids = some out) : out.length ≤ ids.length := by
  obtain ⟨hlen, p, m, hmem, hm, hmerge⟩ := encodeStep_inv h
  obtain ⟨x, rest, hids, hout⟩ := merge_inv hmerge
  have hne : ids ≠ [] := by rw [hids]; simp
  have hgo := @mergeGo_length p m ids hne
  rw [hout]
  simpa using hgo

theorem encodeStep_eq_length {M : List ((ℕ × ℕ) × ℕ)} {ids out : List ℕ}
    (h : encodeStep M ids = some out) (heq : out.length = ids.length) :
    ∃ a b m init, hmGet M (a, b) = some m ∧ ids = init ++ [a, b] ∧
      out = init ++ [m, b] := by
  obtain ⟨hlen, p, m, hmem, hm, hmerge⟩ := encodeStep_inv h
  obtain ⟨x, rest, hids, hout⟩ := merge_inv hmerge
  have hgoeq : (mergeGo p m ids).length + 1 = ids.length := by
    rw [hout] at heq
    simp at heq
    omega
  obtain ⟨init, hinit, hgo⟩ := mergeGo_eq_length hmem hgoeq
  have hxr : x :: rest = (init ++ [p.1]) ++ [p.2] := by
    rw [← hids, hinit, List.append_assoc]
    rfl
  have hlast : lastElem x rest = p.2 := lastElem_of_concat _ _ _ _ hxr
  refine ⟨p.1, p.2, m, init, hm, hinit, ?_⟩
  rw [hout, hgo, hlast, List.append_assoc]
  rfl

theorem encodeStep_elem_bound {M : List ((ℕ × ℕ) × ℕ)} {ids out : List ℕ}
    (h : encodeStep M ids = some out) :
    ∀ z ∈ out, z ∈ ids ∨ z ≤ maxMergeVal M := by
  obtain ⟨hlen, p, m, hmem, hm, hmerge⟩ := encodeStep_inv h
  obtain ⟨x, rest, hids, hout⟩ := merge_inv hmerge
  intro z hz
  rw [hout] at hz
  rcases List.mem_append.mp hz with h1 | h1
  · rcases mergeGo_mem h1 with h2 | h2
    · right
      rw [h2]
      exact hmGet_le_maxMergeVal hm
    · left
      exact h2
  · left
    have hzl : z = lastElem x rest := by simpa using h1
    rw [hzl, hids]
    exact lastElem_mem rest x

theorem penult_concat_pair : ∀ (init : List ℕ) (a b : ℕ), penult (init ++ [a, b]) = a := by
  intro init
  induction init with
  | nil => intro a b; rfl
  | cons x init' ih =>
    intro a b
    show (x :: (init' ++ [a, b])).getD ((x :: (init' ++ [a, b])).length - 2) 0 = a
    have hlen : (x :: (init' ++ [a, b])).length - 2 = ((init' ++ [a, b]).length - 2) + 1 := by
      simp [List.length_cons, List.length_append]
    rw [hlen, List.getD_cons_succ]
    exact ih a b

theorem encodeStep_phi {M : List ((ℕ × ℕ) × ℕ)} (hM : MergesOk M) {ids out : List ℕ}
    (hK : ∀ z ∈ ids, z < encodeK M) (h : encodeStep M ids = some out) :
    (∀ z ∈ out, z < encodeK M) ∧ phi M out < phi M ids := by
  have hKpos : 257 ≤ encodeK M := by unfold encodeK; omega
  have helem : ∀ z ∈ out, z < encodeK M := by
    intro z hz
    rcases encodeStep_elem_bound h z hz with h1 | h1
    · exact hK z h1
    · unfold encodeK at *
      omega
  refine ⟨helem, ?_⟩
  have hlen2 := encodeStep_length h
  obtain ⟨hlen1, -⟩ := encodeStep_inv h
  have hphi_ids : phi M ids = ids.length * encodeK M + (encodeK M - 1 - penult ids) := by
    unfold phi
    rw [if_neg (by omega)]
  rcases lt_or_eq_of_le hlen2 with hlt | heq
  · rw [hphi_ids]
    unfold phi
    by_cases hos : out.length ≤ 1
    · rw [if_pos hos]
      have := Nat.mul_pos (show 0 < ids.length by omega) (show 0 < encodeK M by omega)
      omega
    · rw [if_neg hos]
      have hmul : (out.length + 1) * encodeK M ≤ ids.length * encodeK M :=
        Nat.mul_le_mul_right _ (by omega)
      rw [Nat.add_mul, Nat.one_mul] at hmul
      omega
  · obtain ⟨a, b, m, init, hm, hids2, hout2⟩ := encodeStep_eq_length h heq
    have hpen_ids : penult ids = a := by rw [hids2]; exact penult_concat_pair init a b
    have hpen_out : penult out = m := by rw [hout2]; exact penult_concat_pair init m b
    have ham : a < m := (hM a b m hm).1
    have hmK : m ≤ maxMergeVal M := hmGet_le_maxMergeVal hm
    rw [hphi_ids]
    unfold phi
    rw [if_neg (by omega), heq, hpen_ids, hpen_out]
    have hKdef : encodeK M = maxMergeVal M + 257 := rfl
    omega

theorem encodeLoop_fix {M : List ((ℕ × ℕ) × ℕ)} (hM : MergesOk M) :
    ∀ (fuel : ℕ) (ids : List ℕ), (∀ z ∈ ids, z < encodeK M) → phi M ids ≤ fuel →
      encodeStep M (encodeLoop M fuel ids) = none := by
  intro fuel
  induction fuel with
  | zero =>
    intro ids hK hphi
    have hshort : ids.length ≤ 1 := by
      by_contra hlong
      unfold phi at hphi
      rw [if_neg hlong] at hphi
      have hKpos : 0 < encodeK M := by unfold encodeK; omega
      have := Nat.mul_pos (show 0 < ids.length by omega) hKpos
      omega
    rw [encodeLoop_zero]
    exact encodeStep_none_short hshort
  | succ n ih =>
    intro ids hK hphi
    rw [encodeLoop_succ]
    cases hstep : encodeStep M ids with
    | none => exact hstep
    | some ids1 =>
      obtain ⟨helem, hphi'⟩ := encodeStep_phi hM hK hstep
      exact ih ids1 helem (by omega)

theorem encodeOk_of_mergesOk {M : List ((ℕ × ℕ) × ℕ)} (hM : MergesOk M)
    (text : List ℕ) (htext : ∀ z ∈ text, z < 256) : EncodeOk M text := by
  refine ⟨?_, ?_, ?_⟩
  · unfold encode
    apply encodeLoop_fix hM
    · intro z hz
      have := htext z hz
      unfold encodeK
      omega
    · unfold phi encodeBound
      by_cases hlen : text.length ≤ 1
      · rw [if_pos hlen]
        exact Nat.zero_le _
      · rw [if_neg hlen]
        have hsplit : (text.length + 1) * encodeK M
            = text.length * encodeK M + encodeK M := by
          rw [Nat.add_mul, Nat.one_mul]
        have hKpos : 0 < encodeK M := by unfold encodeK; omega
        omega
  · intro ids out h
    exact encodeStep_length h
  · intro ids out h heq
    exact encodeStep_eq_length h heq

/-! ## Concrete training runs

The corpora below have a unique maximal pair in every round, so every valid
selection function (every `HashMap` iteration order) produces the same result
as `selFirstMax` — except for the corpus of `train_abcd_last`, whose three
pairs tie, which is exactly what claim C7 is about. -/

theorem train_aaab :
    train selFirstMax [97, 97, 97, 98] 257
      = some ⟨[256, 97, 98], (256, [97, 97]) :: baseVocab, [((97, 97), 256)]⟩ := rfl

theorem train_abab :
    train selFirstMax [97, 98, 97, 98] 257
      = some ⟨[256, 256, 98], (256, [97, 98]) :: baseVocab, [((97, 98), 256)]⟩ := rfl

theorem train_abcd_first :
    train selFirstMax [97, 98, 99, 100] 257
      = some ⟨[256, 99, 100], (256, [97, 98]) :: baseVocab, [((97, 98), 256)]⟩ := rfl

theorem train_abcd_last :
    train selLastMax [97, 98, 99, 100] 257
      = some ⟨[97, 98, 256, 100], (256, [99, 100]) :: baseVocab, [((99, 100), 256)]⟩ := rfl

theorem train_a_256 :
    train selFirstMax [97] 256 = some ⟨[97], baseVocab, []⟩ := rfl

theorem mergesOk_single : MergesOk [((97, 98), 256)] := by
  intro a b m h
  simp only [hmGet] at h
  split at h
  · rename_i hc
    injection h with h
    have h1 : a = 97 := by
      have := congrArg Prod.fst hc
      simpa using this.symm
    have h2 : b = 98 := by
      have := congrArg Prod.snd hc
      simpa using this.symm
    rw [h1, h2, ← h]
    exact ⟨by omega, by omega⟩
  · exact Option.noConfusion h

/-! ## The claims -/

/-- C1: the claim states that for every trained tokenizer and every text `t`
using only bytes present in training, `decode(encode(t)) == t`.  The code
violates this: `merge` unconditionally appends the last element of its input
after the windows loop, so when `encode`'s selected pair sits at the end of
the sequence the right half is duplicated.  Training on the corpus `"aaab"`
with `vocab_size = 257` learns the single merge `(97, 97) → 256` (the maximal
pair is unique, so every `HashMap` iteration order yields this run); encoding
`"aa"` then gives `[256, 97]`, which decodes to `"aaa"` — not `"aa"`, although
`"aa"` uses only the training byte `97`.  This also contradicts the repo's own
`test_decode`, which asserts exactly this round-trip. -/
theorem c1_roundtrip_failure :
    (train selFirstMax [97, 97, 97, 98] 257).map
        (fun st => decode st.vocab (encode st.merges [97, 97]))
      = some (Except.ok [97, 97, 97]) ∧
    ([97, 97, 97] : List ℕ) ≠ [97, 97] := by
  constructor
  · rw [train_aaab]
    rfl
  · decide

/-- C2: the claim states the standard non-overlapping greedy merge contract,
with the two quoted examples.  The examples hold, but the universal contract
fails: `merge([3,4], (3,4), 10)` returns `[10, 4]` where the contract requires
`[10]` (the unconditional trailing `new_ids.push(ids[ids.len() - 1])`
duplicates the right half of a final-position merge), and the code panics on
the empty sequence.  This theorem evaluates the code at the failing input and
at the claim's own examples (`specMerge` is the contract's semantics). -/
theorem c2_merge_contract_evaluation :
    merge [3, 4] (3, 4) 10 = some [10, 4] ∧
    specMerge (3, 4) 10 [3, 4] = [10] ∧
    merge [1, 2, 3, 4, 4, 4, 5, 6] (3, 4) 10 = some [1, 2, 10, 4, 4, 5, 6] ∧
    merge [4, 4, 4] (4, 4) 10 = some [10, 4] := by
  refine ⟨by decide, by decide, by decide, by decide⟩

/-- C3 counterexample: the claim asserts that whenever the final two elements
equal the target pair, the output is one element longer than the
non-overlapping-replacement semantics would produce.  At `merge([4,4,4],
(4,4), 10)` the final two elements are `(4, 4)`, yet the output `[10, 4]` has
exactly the length of `specMerge`'s output `[10, 4]` (the final occurrence was
consumed by the earlier overlapping merge, so the appended last element is the
legitimately unmerged trailing `4`, not an extra duplicate). -/
theorem c3_counterexample :
    merge [4, 4, 4] (4, 4) 10 = some [10, 4] ∧
    specMerge (4, 4) 10 [4, 4, 4] = [10, 4] ∧
    ¬(([10, 4] : List ℕ).length = (specMerge (4, 4) 10 [4, 4, 4]).length + 1) := by
  refine ⟨by decide, by decide, by decide⟩

/-- C3 (amended): for every sequence whose final two elements equal the target
pair `(a, b)` with `a ≠ b`, `merge` returns the non-overlapping-replacement
result with an extra duplicate copy of `b` appended: the output ends with the
minted id `m` followed by `b` and is one element longer than `specMerge`'s
output.  (When `a = b`, the final pair can be consumed by an earlier
overlapping merge and the output can coincide with `specMerge`'s.) -/
theorem c3_amended_trailing_duplicate (a b m : ℕ) (hab : a ≠ b) (init : List ℕ) :
    merge (init ++ [a, b]) (a, b) m
      = some (specMerge (a, b) m (init ++ [a, b]) ++ [b]) ∧
    ∃ pre, merge (init ++ [a, b]) (a, b) m = some (pre ++ [m, b]) := by
  obtain ⟨pre, hs, hg⟩ := specMerge_mergeGo_concat hab init
  obtain ⟨x, rest, hxr⟩ : ∃ x rest, init ++ [a, b] = x :: rest := by
    cases init with
    | nil => exact ⟨a, [b], rfl⟩
    | cons x init' => exact ⟨x, init' ++ [a, b], rfl⟩
  have hlast : lastElem x rest = b := by
    apply lastElem_of_concat (init ++ [a]) b x rest
    rw [← hxr, List.append_assoc]
    rfl
  constructor
  · rw [hxr, merge_cons, hlast, ← hxr, hg, hs]
  · refine ⟨pre, ?_⟩
    rw [hxr, merge_cons, hlast, ← hxr, hg, List.append_assoc]
    rfl

/-- Witness for the amended C3, at `merge([1,3,4], (3,4), 10)`. -/
theorem c3_amended_trailing_duplicate_witness :
    (3 : ℕ) ≠ 4 ∧
    (merge ([1] ++ [3, 4]) (3, 4) 10
        = some (specMerge (3, 4) 10 ([1] ++ [3, 4]) ++ [4]) ∧
      ∃ pre, merge ([1] ++ [3, 4]) (3, 4) 10 = some (pre ++ [10, 4])) :=
  ⟨by decide, c3_amended_trailing_duplicate 3 4 10 (by decide) [1]⟩

/-- C4 counterexample: the claim includes the empty sequence, but
`merge([], (a, b), m)` executes `ids[ids.len() - 1]` on an empty slice — the
`usize` index underflows and the access panics (modelled as `none`), instead
of returning the empty sequence unchanged. -/
theorem c4_counterexample :
    merge ([] : List ℕ) (1, 2) 3 = none ∧
    merge ([] : List ℕ) (1, 2) 3 ≠ some [] := by
  refine ⟨by decide, by decide⟩

/-- C4 (amended): for every nonempty sequence `s` in which the adjacent pair
does not occur — including every single-element sequence — `merge` returns `s`
unchanged; the empty sequence instead panics on the out-of-bounds final
index. -/
theorem c4_amended_absent_pair_unchanged (s : List ℕ) (pair : ℕ × ℕ) (m : ℕ)
    (hne : s ≠ []) (habs : pair ∉ bigrams s) : merge s pair m = some s :=
  merge_self_of_not_mem m hne habs

/-- Witness for the amended C4, at `merge([5,6,7], (9,9), 3)`. -/
theorem c4_amended_absent_pair_unchanged_witness :
    ([5, 6, 7] : List ℕ) ≠ [] ∧ (9, 9) ∉ bigrams [5, 6, 7] ∧
    merge [5, 6, 7] (9, 9) 3 = some [5, 6, 7] :=
  ⟨by decide, by decide,
    c4_amended_absent_pair_unchanged [5, 6, 7] (9, 9) 3 (by decide) (by decide)⟩

/-- C5: the claim requires `vocab_size < 256` to fail up front with an
`InvalidConfiguration` error.  No such error exists anywhere in the code:
`train` returns `()` and simply computes `let num_merges: usize = vocab_size -
256;`, which on `vocab_size = 255` underflows — a debug build panics on
overflow and a release build wraps to `2 ^ 64 - 1` requested merge rounds
(this theorem evaluates that subtraction), exactly the silent underflow the
spec forbids. -/
theorem c5_underflow_wraps :
    trainNumMerges 255 = 2 ^ 64 - 1 ∧ trainNumMerges 256 = 0 := by
  refine ⟨by decide, by decide⟩

/-- C6: the claim requires training to stop early, without error, when the
candidate pairs are exhausted (e.g. the empty corpus).  Instead, when
`get_stats` returns an empty map the code's
`stats.iter().max_by_key(..).unwrap()` unwraps `None` and panics (modelled as
`none`): training on the empty corpus or on any single-byte corpus with
`vocab_size = 257` aborts. -/
theorem c6_exhausted_pairs_panic :
    train selFirstMax ([] : List ℕ) 257 = none ∧
    train selFirstMax [97] 257 = none :=
  ⟨rfl, rfl⟩

/-- C7: the claim asserts training is deterministic with one consistent
tie-break rule.  The code selects `stats.iter().max_by_key(..)` over a
`HashMap` whose iteration order is randomized per instance, so a tie is
broken by that unspecified order.  On the corpus `"abcd"` with `vocab_size =
257` all three pairs tie with count 1; the first-maximal and last-maximal
selections are both valid realizations of `max_by_key` (shown by the two
`ValidSel` conjuncts), yet they produce different merge tables — so two runs
of the program need not agree. -/
theorem c7_tiebreak_nondeterminism :
    ValidSel selFirstMax ∧ ValidSel selLastMax ∧
    (train selFirstMax [97, 98, 99, 100] 257).map TrainState.merges
      = some [((97, 98), 256)] ∧
    (train selLastMax [97, 98, 99, 100] 257).map TrainState.merges
      = some [((99, 100), 256)] ∧
    ([((97, 98), 256)] : List ((ℕ × ℕ) × ℕ)) ≠ [((99, 100), 256)] := by
  refine ⟨validSel_selFirstMax, validSel_selLastMax, ?_, ?_, by decide⟩
  · rw [train_abcd_first]
    rfl
  · rw [train_abcd_last]
    rfl

/-- C8: the claim says decode fails with a reported `InvalidEncoding` error
exactly when the concatenated byte buffer is not valid text.  The code has no
error value at all — `decode` returns `String` and panics via
`String::from_utf8(..).unwrap()`; it moreover panics on an id missing from
the vocabulary (`self.vocab[idx]`) before any buffer exists, a failure mode
outside the claim's "exactly when".  This theorem evaluates the three
behaviors on a tokenizer trained with `vocab_size = 256` (the base
vocabulary): id `128` yields the invalid-UTF-8 buffer `[0x80]` (panic),
id `256` is missing from the vocabulary (panic), and `[97, 98]` decodes to
`"ab"`. -/
theorem c8_decode_panics :
    (train selFirstMax [97] 256).map (fun st => decode st.vocab [128])
      = some (Except.error DecodeError.invalidUtf8) ∧
    (train selFirstMax [97] 256).map (fun st => decode st.vocab [256])
      = some (Except.error DecodeError.missingId) ∧
    (train selFirstMax [97] 256).map (fun st => decode st.vocab [97, 98])
      = some (Except.ok [97, 98]) := by
  refine ⟨?_, ?_, ?_⟩
  · rw [train_a_256]
    rfl
  · rw [train_a_256]
    rfl
  · rw [train_a_256]
    rfl

/-- C9: after any completed run of `train` (any corpus, any requested size,
any `HashMap` iteration order), the vocabulary satisfies the claimed
invariants: its size is `256` plus the number of merge rounds performed; ids
`0..255` map to their single bytes; the id space is dense (an id is present
iff it is below the size, so each minted id equalled the size at minting
time); and every id `≥ 256` maps to the concatenation of the byte strings of
the two ids recorded for it in the merge table. -/
theorem c9_vocab_invariants (sel : List ((ℕ × ℕ) × ℕ) → Option (ℕ × ℕ))
    (text : List ℕ) (vocab_size : ℕ) (st : TrainState)
    (h : train sel text vocab_size = some st) :
    VocabOk st (trainNumMerges vocab_size) := by
  unfold train at h
  have hloop := vocabOk_loop (trainNumMerges vocab_size) _ st 0 h (vocabOk_init text)
  simpa using hloop

/-- Witness for C9: the training run on `"aaab"` with `vocab_size = 257`. -/
theorem c9_vocab_invariants_witness :
    train selFirstMax [97, 97, 97, 98] 257
      = some ⟨[256, 97, 98], (256, [97, 97]) :: baseVocab, [((97, 97), 256)]⟩ ∧
    VocabOk ⟨[256, 97, 98], (256, [97, 97]) :: baseVocab, [((97, 97), 256)]⟩
      (trainNumMerges 257) :=
  ⟨train_aaab, c9_vocab_invariants selFirstMax [97, 97, 97, 98] 257 _ train_aaab⟩

/-- C10 counterexample: the claim asserts each `encode` loop iteration either
stops or strictly shrinks the sequence.  With the merge table learned from
training on `"abab"` (`(97, 98) → 256`), the iteration on `[97, 98]` neither
stops nor shrinks: it merges the final pair and `merge`'s trailing push keeps
the length at 2 (`[256, 98]`). -/
theorem c10_counterexample :
    (train selFirstMax [97, 98, 97, 98] 257).map TrainState.merges
      = some [((97, 98), 256)] ∧
    encodeStep [((97, 98), 256)] [97, 98] = some [256, 98] ∧
    ([256, 98] : List ℕ).length = ([97, 98] : List ℕ).length := by
  refine ⟨?_, by decide, by decide⟩
  rw [train_abab]
  rfl

/-- C10 (amended): for every merge table in which each recorded merge mints an
id larger than both components (true of every trained tokenizer, see the C9
invariants) and every byte sequence — including bytes never seen in training —
`encode` terminates and returns a final id sequence: the returned sequence
admits no further step, and each loop iteration either stops or merges the
lowest-ranked applicable pair, which never lengthens the sequence and
preserves its length only in the end-of-sequence merge case exhibited by the
counterexample. -/
theorem c10_encode_terminates (M : List ((ℕ × ℕ) × ℕ)) (hM : MergesOk M)
    (text : List ℕ) (htext : ∀ z ∈ text, z < 256) : EncodeOk M text :=
  encodeOk_of_mergesOk hM text htext

/-- Witness for the amended C10: the single-merge table `(97, 98) → 256` and
the text `"ab"`. -/
theorem c10_encode_terminates_witness :
    MergesOk [((97, 98), 256)] ∧ (∀ z ∈ ([97, 98] : List ℕ), z < 256) ∧
    EncodeOk [((97, 98), 256)] [97, 98] :=
  ⟨mergesOk_single, by decide,
    c10_encode_terminates _ mergesOk_single _ (by decide)⟩

end Toktokenizer
